import Mathlib

/-!
Verification of the temperature-scaling core of `temperature_scaling.py`.

The numeric code is embedded over `ℚ` (exact arithmetic standing for the
floating-point values of the source).  Calibration-error evaluators
(`ECELoss`, `CrossEntropyLoss`, accuracy) live outside the repository
(`Metrics.metrics`), so they enter the embedding as abstract functions of
the quantity the source feeds them (a temperature, or a temperature
vector); everything that the repository itself computes is translated
directly from the source.
-/

namespace FocalCalib

/-! ### Scalar temperature grid search

Embeds the 100-candidate loop appearing at `temperature_scaling.py`
lines 156-173, 214-222, 721-731, 1054-1066: `T = 0.1`, one hundred
iterations of `if ece_val > after_temperature_ece: T_opt_ece = T;
ece_val = after_temperature_ece` followed by `T += 0.1`, starting from
`T_opt_ece = 1.0`, `ece_val = 10 ** 7`.  `err T` stands for the external
evaluator applied to the scaled logits `logits / T`. -/

/-- Body of the grid-search loop: accept the candidate exactly when its
error is strictly below the incumbent error. -/
def gridStep (err : ℚ → ℚ) (s : ℚ × ℚ) (T : ℚ) : ℚ × ℚ :=
  if s.2 > err T then (T, err T) else s

/-- The list of candidate temperatures visited by `n` iterations starting
at `T` when each iteration ends with `T += 0.1`. -/
def gridList : ℕ → ℚ → List ℚ
  | 0, _ => []
  | n + 1, T => T :: gridList n (T + 1 / 10)

/-- The default grid: one hundred candidates starting at `0.1`. -/
def tempGrid : List ℚ := gridList 100 (1 / 10)

/-- The grid-search loop of the source, tracking the running temperature
`T` and the incumbent pair `(T_opt, ece_val)`. -/
def gridSearchLoop (err : ℚ → ℚ) : ℕ → ℚ → ℚ × ℚ → ℚ × ℚ
  | 0, _, s => s
  | n + 1, T, s => gridSearchLoop err n (T + 1 / 10) (gridStep err s T)

/-- The scalar grid search: `T_opt_ece` after the loop, seeded with
`T_opt_ece = 1.0` and `ece_val = 10 ** 7`. -/
def gridSearch (err : ℚ → ℚ) : ℚ :=
  (gridSearchLoop err 100 (1 / 10) (1, 10 ^ 7)).1

theorem gridSearchLoop_eq_foldl (err : ℚ → ℚ) :
    ∀ (n : ℕ) (T : ℚ) (s : ℚ × ℚ),
      gridSearchLoop err n T s = (gridList n T).foldl (gridStep err) s := by
  intro n
  induction n with
  | zero => intro T s; rfl
  | succ m ih => intro T s; simp [gridSearchLoop, gridList, List.foldl, ih]

theorem gridList_length (n : ℕ) : ∀ T : ℚ, (gridList n T).length = n := by
  induction n with
  | zero => intro T; rfl
  | succ m ih => intro T; simp [gridList, ih]

theorem gridList_getD (n : ℕ) :
    ∀ (T : ℚ) (i : ℕ), i < n → (gridList n T).getD i 0 = T + i * (1 / 10) := by
  induction n with
  | zero => intro T i h; omega
  | succ m ih =>
    intro T i h
    cases i with
    | zero => simp [gridList]
    | succ j =>
      have hj : j < m := by omega
      have := ih (T + 1 / 10) j hj
      simp only [gridList, List.getD_cons_succ, this]
      push_cast
      ring

theorem gridList_le_of_mem {n : ℕ} :
    ∀ {T b : ℚ}, b ∈ gridList n T → T ≤ b := by
  induction n with
  | zero => intro T b h; simp [gridList] at h
  | succ m ih =>
    intro T b h
    simp only [gridList, List.mem_cons] at h
    rcases h with h | h
    · exact le_of_eq h.symm
    · have := ih h
      linarith

theorem gridList_pairwise (n : ℕ) :
    ∀ T : ℚ, List.Pairwise (· < ·) (gridList n T) := by
  induction n with
  | zero => intro T; simp [gridList]
  | succ m ih =>
    intro T
    refine List.Pairwise.cons ?_ (ih (T + 1 / 10))
    intro b hb
    have := gridList_le_of_mem hb
    linarith

theorem tempGrid_pairwise : List.Pairwise (· < ·) tempGrid :=
  gridList_pairwise 100 (1 / 10)

theorem gridList_mem_le {n : ℕ} :
    ∀ {T b : ℚ}, b ∈ gridList n T → b ≤ T + n * (1 / 10) := by
  induction n with
  | zero => intro T b h; simp [gridList] at h
  | succ m ih =>
    intro T b h
    simp only [gridList, List.mem_cons] at h
    rcases h with h | h
    · subst h; push_cast; nlinarith [Nat.cast_nonneg (α := ℚ) m]
    · have := ih h
      push_cast at this ⊢
      linarith

theorem oneTenth_mem_tempGrid : (1 / 10 : ℚ) ∈ tempGrid := by
  rw [show tempGrid = (1 / 10 : ℚ) :: gridList 99 (1 / 10 + 1 / 10) from rfl]
  exact List.mem_cons_self _ _

theorem tempGrid_mem_le {b : ℚ} (h : b ∈ tempGrid) : b ≤ 101 / 10 := by
  have := gridList_mem_le (n := 100) (T := 1 / 10) h
  push_cast at this
  linarith

theorem tempGrid_mem_pos {b : ℚ} (h : b ∈ tempGrid) : 0 < b := by
  have := gridList_le_of_mem (n := 100) (T := 1 / 10) h
  linarith

/-- Main invariant of the strict-improvement fold: starting from a seed
`s` that records its own error and precedes the remaining candidates in
the strictly increasing order, the fold ends at the first minimizer. -/
theorem foldl_gridStep_spec (err : ℚ → ℚ) :
    ∀ (l : List ℚ) (s : ℚ × ℚ), s.2 = err s.1 →
      List.Pairwise (· < ·) (s.1 :: l) →
      (List.foldl (gridStep err) s l).2 = err (List.foldl (gridStep err) s l).1 ∧
      (List.foldl (gridStep err) s l).1 ∈ s.1 :: l ∧
      (∀ T ∈ s.1 :: l, (List.foldl (gridStep err) s l).2 ≤ err T) ∧
      (∀ T ∈ s.1 :: l, err T = (List.foldl (gridStep err) s l).2 →
        (List.foldl (gridStep err) s l).1 ≤ T) := by
  intro l
  induction l with
  | nil =>
    intro s hs _
    simp only [List.foldl_nil]
    refine ⟨hs, List.mem_singleton.mpr rfl, ?_, ?_⟩
    · intro T hT
      rw [List.mem_singleton.mp hT, ← hs]
    · intro T hT _
      rw [List.mem_singleton.mp hT]
  | cons x xs ih =>
    intro s hs hp
    by_cases hc : err x < s.2
    · have hstep : gridStep err s x = (x, err x) := if_pos hc
      have hp2 : List.Pairwise (· < ·) (x :: xs) := hp.of_cons
      have h := ih (x, err x) rfl hp2
      rw [List.foldl_cons, hstep]
      obtain ⟨h1, h2, h3, h4⟩ := h
      have hlex : (List.foldl (gridStep err) (x, err x) xs).2 ≤ err x :=
        h3 x (List.mem_cons_self x xs)
      refine ⟨h1, List.mem_cons_of_mem _ h2, ?_, ?_⟩
      · intro T hT
        rcases List.mem_cons.mp hT with hT | hT
        · subst hT
          have : err x < err s.1 := hs ▸ hc
          linarith
        · exact h3 T hT
      · intro T hT hTe
        rcases List.mem_cons.mp hT with hT | hT
        · exfalso
          have h5 : err s.1 = (List.foldl (gridStep err) (x, err x) xs).2 := by
            rw [← hT]; exact hTe
          have h6 : err s.1 = s.2 := hs.symm
          linarith
        · exact h4 T hT hTe
    · have hstep : gridStep err s x = s := if_neg (by simpa using hc)
      have hsub : (s.1 :: xs).Sublist (s.1 :: x :: xs) :=
        (List.sublist_cons_self x xs).cons₂ s.1
      have hp2 : List.Pairwise (· < ·) (s.1 :: xs) := hp.sublist hsub
      have h := ih s hs hp2
      rw [List.foldl_cons, hstep]
      obtain ⟨h1, h2, h3, h4⟩ := h
      have hs1x : s.1 < x := (List.pairwise_cons.mp hp).1 x (List.mem_cons_self x xs)
      have hb1 : (List.foldl (gridStep err) s xs).2 ≤ err s.1 :=
        h3 s.1 (List.mem_cons_self s.1 xs)
      refine ⟨h1, ?_, ?_, ?_⟩
      · rcases List.mem_cons.mp h2 with h2 | h2
        · exact h2 ▸ List.mem_cons_self _ _
        · exact List.mem_cons_of_mem _ (List.mem_cons_of_mem _ h2)
      · intro T hT
        rcases List.mem_cons.mp hT with hT | hT
        · exact h3 T (hT ▸ List.mem_cons_self _ _)
        · rcases List.mem_cons.mp hT with hT | hT
          · subst hT
            have : s.2 ≤ err T := not_lt.mp hc
            calc (List.foldl (gridStep err) s xs).2 ≤ err s.1 := hb1
              _ = s.2 := hs.symm
              _ ≤ err T := this
          · exact h3 T (List.mem_cons_of_mem _ hT)
      · intro T hT hTe
        rcases List.mem_cons.mp hT with hT | hT
        · exact h4 T (hT ▸ List.mem_cons_self _ _) hTe
        · rcases List.mem_cons.mp hT with hT | hT
          · subst hT
            have hxe : s.2 ≤ err T := not_lt.mp hc
            have hrs : (List.foldl (gridStep err) s xs).2 = err s.1 := by
              have : err s.1 = s.2 := hs.symm
              have h1le : (List.foldl (gridStep err) s xs).2 ≤ err s.1 := hb1
              have h2ge : err s.1 ≤ (List.foldl (gridStep err) s xs).2 := by
                rw [this, ← hTe] at *
                linarith
              linarith
            have := h4 s.1 (List.mem_cons_self s.1 xs) hrs.symm
            linarith
          · exact h4 T (List.mem_cons_of_mem _ hT) hTe

/-- Shared content of the grid search: under any objective that stays
below the `10 ** 7` seed on the grid, the search returns a grid member
minimizing the objective, preferring the smallest member on ties. -/
theorem gridSearch_spec (err : ℚ → ℚ)
    (h : ∀ T ∈ tempGrid, err T < 10 ^ 7) :
    gridSearch err ∈ tempGrid ∧
    (∀ T ∈ tempGrid, err (gridSearch err) ≤ err T) ∧
    (∀ T ∈ tempGrid, err T = err (gridSearch err) → gridSearch err ≤ T) := by
  have hgrid : tempGrid = (1 / 10 : ℚ) :: gridList 99 (1 / 10 + 1 / 10) := rfl
  have hseed : gridStep err (1, 10 ^ 7) (1 / 10) = (1 / 10, err (1 / 10)) :=
    if_pos (h (1 / 10) oneTenth_mem_tempGrid)
  have hfold : gridSearchLoop err 100 (1 / 10) (1, 10 ^ 7) =
      List.foldl (gridStep err) (1 / 10, err (1 / 10)) (gridList 99 (1 / 10 + 1 / 10)) := by
    rw [gridSearchLoop_eq_foldl]
    have hg : gridList 100 (1 / 10) = (1 / 10 : ℚ) :: gridList 99 (1 / 10 + 1 / 10) := rfl
    rw [hg, List.foldl_cons, hseed]
  have hpw : List.Pairwise (· < ·)
      ((1 / 10 : ℚ) :: gridList 99 (1 / 10 + 1 / 10)) := by
    have := tempGrid_pairwise
    rwa [hgrid] at this
  have hspec := foldl_gridStep_spec err (gridList 99 (1 / 10 + 1 / 10))
    (1 / 10, err (1 / 10)) rfl hpw
  obtain ⟨h1, h2, h3, h4⟩ := hspec
  have hgs : gridSearch err =
      (List.foldl (gridStep err) (1 / 10, err (1 / 10)) (gridList 99 (1 / 10 + 1 / 10))).1 := by
    rw [gridSearch, hfold]
  refine ⟨?_, ?_, ?_⟩
  · rw [hgs, hgrid]; exact h2
  · intro T hT
    rw [hgs, ← h1]
    exact h3 T (by rw [hgrid] at hT; exact hT)
  · intro T hT hTe
    rw [hgs]
    refine h4 T (by rw [hgrid] at hT; exact hT) ?_
    rw [hTe, hgs, h1]

/-- C1: the scalar temperature grid search evaluates exactly the one
hundred candidates 0.1, 0.2, ..., 10.0 and (whenever the objective stays
below the `10 ** 7` seed, as every calibration error does) returns the
grid candidate minimizing the objective; on ties it keeps the first —
that is, smallest — such candidate, because a later candidate replaces
the incumbent only on a strictly lower error. -/
theorem C1_scalar_grid_search (err : ℚ → ℚ)
    (h : ∀ T ∈ tempGrid, err T < 10 ^ 7) :
    tempGrid.length = 100 ∧
    (∀ i : ℕ, i < 100 → tempGrid.getD i 0 = (i + 1) / 10) ∧
    gridSearch err ∈ tempGrid ∧
    (∀ T ∈ tempGrid, err (gridSearch err) ≤ err T) ∧
    (∀ T ∈ tempGrid, err T = err (gridSearch err) → gridSearch err ≤ T) := by
  have hget : ∀ i : ℕ, i < 100 → tempGrid.getD i 0 = (i + 1) / 10 := by
    intro i hi
    have := gridList_getD 100 (1 / 10) i hi
    rw [tempGrid, this]
    ring
  obtain ⟨h1, h2, h3⟩ := gridSearch_spec err h
  exact ⟨gridList_length 100 (1 / 10), hget, h1, h2, h3⟩

/-- Witness for C1 at the constant-zero objective. -/
theorem C1_scalar_grid_search_witness :
    gridSearch (fun _ => 0) ∈ tempGrid ∧ tempGrid.length = 100 := by
  have h := C1_scalar_grid_search (fun _ => 0) (by intro T _; norm_num)
  exact ⟨h.2.2.1, h.1⟩

/-! ### Iterated temperature scaling (C10)

`ModelWithTemperature.iter_temperature_scale` (lines 59-67): the scaled
logits start as a clone of `logits` and are divided in turn by each entry
of `temps_iters`. -/

/-- Sequential division of every logit by each per-iteration temperature,
exactly as the `for i in range(self.iters)` loop does. -/
def iter_temperature_scale (logits : List (List ℚ)) (temps_iters : List ℚ) :
    List (List ℚ) :=
  temps_iters.foldl (fun scaled t => scaled.map (fun row => row.map (fun z => z / t))) logits

/-- C10: dividing sequentially by each per-iteration temperature equals a
single division by the product of all the temperatures. -/
theorem C10_iter_scale_eq_div_prod (logits : List (List ℚ)) (temps_iters : List ℚ) :
    iter_temperature_scale logits temps_iters =
      logits.map (fun row => row.map (fun z => z / temps_iters.prod)) := by
  induction temps_iters generalizing logits with
  | nil =>
    simp [iter_temperature_scale]
  | cons t ts ih =>
    have step : iter_temperature_scale logits (t :: ts) =
        iter_temperature_scale (logits.map (fun row => row.map (fun z => z / t))) ts := rfl
    rw [step, ih]
    simp [List.map_map, Function.comp, div_div]

/-! ### Step-based candidate temperatures (C6, C2)

The per-class refinement in `ModelWithTemperature.set_temperature`
(lines 248-301) and the per-bin refinement in `set_bins_temperature`
(lines 401-442) draw their candidates from
`temp_steps = torch.linspace(-0.2, 0.2, 5)` added to the incumbent
temperature `init_temp_value`, and the objective is evaluated at every
one of these candidates. -/

/-- The five steps `-0.2, -0.1, 0.0, 0.1, 0.2` of `temp_steps`. -/
def tempSteps : List ℚ := (List.range 5).map (fun k : ℕ => -(1 / 5) + (k : ℚ) * (1 / 10))

/-- The candidate temperatures `init_temp_value + step` at which the
evaluator is invoked during one class's (or one bin's) step scan. -/
def stepCandidates (init : ℚ) : List ℚ := tempSteps.map (fun s => init + s)

theorem tempSteps_eq : tempSteps = [-(1 / 5), -(1 / 10), 0, 1 / 10, 1 / 5] := by
  have h : List.range 5 = [0, 1, 2, 3, 4] := rfl
  rw [tempSteps, h]
  norm_num

/-- C6 counterexample: the warm start can return temperature `0.1` (for
example when the objective is increasing in the temperature), and the
step scan for the first class then evaluates the candidate `-0.1 ≤ 0`. -/
theorem C6_counterexample_nonpositive_candidate :
    gridSearch (fun T => T) = 1 / 10 ∧
    (-(1 / 10) : ℚ) ∈ stepCandidates (gridSearch (fun T => T)) ∧
    ¬ (0 < (-(1 / 10) : ℚ)) := by
  have hb : ∀ T ∈ tempGrid, (fun T : ℚ => T) T < 10 ^ 7 := by
    intro T hT
    have := tempGrid_mem_le hT
    norm_num
    linarith
  obtain ⟨h1, h2, _⟩ := gridSearch_spec (fun T => T) hb
  have hge : 1 / 10 ≤ gridSearch (fun T => T) :=
    gridList_le_of_mem (n := 100) (T := 1 / 10) h1
  have hle : gridSearch (fun T => T) ≤ 1 / 10 := h2 (1 / 10) oneTenth_mem_tempGrid
  have hgs : gridSearch (fun T => T) = 1 / 10 := le_antisymm hle hge
  refine ⟨hgs, ?_, by norm_num⟩
  rw [hgs]
  have hm : (-(1 / 5) : ℚ) ∈ tempSteps := by
    rw [tempSteps_eq]; exact List.mem_cons_self _ _
  have heq : (-(1 / 10) : ℚ) = 1 / 10 + -(1 / 5) := by norm_num
  rw [heq, stepCandidates]
  exact List.mem_map_of_mem _ hm

/-- C6 amended: every candidate of the warm-start grid is strictly
positive, but the step-based refinement's candidates are all strictly
positive precisely when the incumbent temperature exceeds `0.2`; an
incumbent of at most `0.2` (such as warm start `0.1`) makes the scan
evaluate a non-positive temperature. -/
theorem C6_positive_temperatures :
    (∀ T ∈ tempGrid, 0 < T) ∧
    (∀ init : ℚ, (∀ c ∈ stepCandidates init, 0 < c) ↔ 1 / 5 < init) := by
  constructor
  · intro T hT
    exact tempGrid_mem_pos hT
  · intro init
    constructor
    · intro h
      have hm : init + -(1 / 5) ∈ stepCandidates init := by
        have hms : (-(1 / 5) : ℚ) ∈ tempSteps := by
          rw [tempSteps_eq]; exact List.mem_cons_self _ _
        exact List.mem_map_of_mem _ hms
      have := h _ hm
      linarith
    · intro h c hc
      rw [stepCandidates] at hc
      obtain ⟨s, hs, rfl⟩ := List.mem_map.mp hc
      rw [tempSteps_eq] at hs
      simp only [List.mem_cons, List.not_mem_nil, or_false] at hs
      have hsb : -(1 / 5) ≤ s := by
        rcases hs with rfl | rfl | rfl | rfl | rfl <;> norm_num
      linarith

/-- Witness for C6 at incumbents `0.1` and `0.3`. -/
theorem C6_positive_temperatures_witness :
    (0 : ℚ) < 1 / 10 ∧ (∀ c ∈ stepCandidates (3 / 10), 0 < c) := by
  constructor
  · exact C6_positive_temperatures.1 (1 / 10) oneTenth_mem_tempGrid
  · exact (C6_positive_temperatures.2 (3 / 10)).mpr (by norm_num)

/-! ### Accuracy-guarded per-class scan of `set_temperature` (C2)

In `ModelWithTemperature.set_temperature` (lines 256-301) the global grid
loop of lines 214-222 leaves its loop variable `T` at
`0.1 + 100 * 0.1 = 10.1`, and `T` is never reassigned afterwards.  With
`acc_check` enabled the accept branch (lines 290-294) runs
`T_opt_csece[label] = T` — the stale `10.1` — while the `else` branch
(lines 295-299) stores the actual candidate `init_temp_value + step`. -/

/-- Final value of the loop variable `T` after `n` rounds of `T += 0.1`
starting from `T`. -/
def gridLoopFinalT : ℕ → ℚ → ℚ
  | 0, T => T
  | n + 1, T => gridLoopFinalT n (T + 1 / 10)

/-- The stale value of `T` entering the per-class refinement. -/
def staleT : ℚ := gridLoopFinalT 100 (1 / 10)

theorem gridLoopFinalT_eq : ∀ (n : ℕ) (T : ℚ), gridLoopFinalT n T = T + n * (1 / 10) := by
  intro n
  induction n with
  | zero => intro T; simp [gridLoopFinalT]
  | succ m ih =>
    intro T
    rw [gridLoopFinalT, ih]
    push_cast
    ring

theorem staleT_eq : staleT = 101 / 10 := by
  rw [staleT, gridLoopFinalT_eq]
  norm_num

/-- State of the accuracy-guarded scan of one class: the working vector
`T_csece`, the accepted vector `T_opt_csece`, the incumbent error
`csece_val` and the best accuracy `accuracy` seen so far. -/
structure AccScanState where
  Tc : List ℚ
  Topt : List ℚ
  csval : ℚ
  acc : ℚ
  deriving Repr

/-- Body of the accuracy-guarded candidate loop (lines 267-294 with
`acc_check`): the candidate is written into `T_csece[label]` and
evaluated; it is accepted when its error strictly improves `csece_val`
and its accuracy is not below the best seen, and acceptance stores the
stale scalar `T` (frozen at `staleT`) — not the candidate — into
`T_opt_csece[label]`. -/
def accStep (err accf : List ℚ → ℚ) (stale : ℚ) (l : ℕ)
    (st : AccScanState) (c : ℚ) : AccScanState :=
  let Tc2 := st.Tc.set l c
  let e := err Tc2
  let a := accf Tc2
  if st.csval > e ∧ st.acc ≤ a then
    { Tc := Tc2, Topt := st.Topt.set l stale, csval := e, acc := a }
  else
    { st with Tc := Tc2 }

/-- One class's scan in the `acc_check` branch of
`ModelWithTemperature.set_temperature` (lines 258-301), followed by the
write-back `T_csece[label] = T_opt_csece[label]` of line 301. -/
def scanLabelAccCheck (err accf : List ℚ → ℚ) (stale : ℚ) (l : ℕ)
    (s : AccScanState) : AccScanState :=
  let s1 := (stepCandidates (s.Tc.getD l 0)).foldl (accStep err accf stale l) s
  { s1 with Tc := s1.Tc.set l (s1.Topt.getD l 0) }

/-- C2: with the accuracy guard enabled, an accepted improvement stores
the stale global-loop scalar `10.1` rather than the accepted candidate's
own value; `10.1` is not even one of the scanned candidates. -/
theorem C2_stale_temperature_stored :
    staleT = 101 / 10 ∧
    (scanLabelAccCheck (fun _ => 0) (fun _ => 1) staleT 0
        ⟨[1 / 2], [1 / 2], 10 ^ 7, 1 / 2⟩).Topt = [101 / 10] ∧
    (101 / 10 : ℚ) ∉ stepCandidates (1 / 2) := by
  have hc : stepCandidates (1 / 2) = [3 / 10, 2 / 5, 1 / 2, 3 / 5, 7 / 10] := by
    rw [stepCandidates, tempSteps_eq]
    norm_num
  have h1 : accStep (fun _ => 0) (fun _ => 1) staleT 0
      ⟨[1 / 2], [1 / 2], 10 ^ 7, 1 / 2⟩ (3 / 10) = ⟨[3 / 10], [staleT], 0, 1⟩ := by
    rw [show accStep (fun _ => 0) (fun _ => 1) staleT 0
        ⟨[1 / 2], [1 / 2], 10 ^ 7, 1 / 2⟩ (3 / 10) =
        (if (10 ^ 7 : ℚ) > 0 ∧ (1 / 2 : ℚ) ≤ 1 then
          (⟨[3 / 10], [staleT], 0, 1⟩ : AccScanState)
        else ⟨[3 / 10], [1 / 2], 10 ^ 7, 1 / 2⟩) from rfl]
    rw [if_pos (by norm_num)]
  have hrej : ∀ Tcur c : ℚ, accStep (fun _ => 0) (fun _ => 1) staleT 0
      ⟨[Tcur], [staleT], 0, 1⟩ c = ⟨[c], [staleT], 0, 1⟩ := by
    intro Tcur c
    rw [show accStep (fun _ => 0) (fun _ => 1) staleT 0
        ⟨[Tcur], [staleT], 0, 1⟩ c =
        (if (0 : ℚ) > 0 ∧ (1 : ℚ) ≤ 1 then
          (⟨[c], [staleT], 0, 1⟩ : AccScanState)
        else ⟨[c], [staleT], 0, 1⟩) from rfl]
    rw [if_neg (by norm_num)]
  have hfold : (stepCandidates (1 / 2)).foldl
      (accStep (fun _ => 0) (fun _ => 1) staleT 0)
      ⟨[1 / 2], [1 / 2], 10 ^ 7, 1 / 2⟩ = ⟨[7 / 10], [staleT], 0, 1⟩ := by
    rw [hc]
    rw [List.foldl_cons, h1, List.foldl_cons, hrej, List.foldl_cons, hrej,
      List.foldl_cons, hrej, List.foldl_cons, hrej, List.foldl_nil]
  refine ⟨staleT_eq, ?_, ?_⟩
  · have hrw : scanLabelAccCheck (fun _ => 0) (fun _ => 1) staleT 0
        ⟨[1 / 2], [1 / 2], 10 ^ 7, 1 / 2⟩ =
        (let s1 := (stepCandidates (1 / 2)).foldl
          (accStep (fun _ => 0) (fun _ => 1) staleT 0)
          ⟨[1 / 2], [1 / 2], 10 ^ 7, 1 / 2⟩
        { s1 with Tc := s1.Tc.set 0 (s1.Topt.getD 0 0) }) := rfl
    rw [hrw, hfold]
    show [staleT] = [101 / 10]
    rw [staleT_eq]
  · rw [hc]
    intro hmem
    simp only [List.mem_cons, List.not_mem_nil, or_false] at hmem
    rcases hmem with h | h | h | h | h <;> norm_num at h

/-! ### Best-iteration marker of the per-bin solver (C4)

`set_temperature3` (lines 1341-1356) and
`ModelWithTemperature.set_bins_temperature2` (lines 631-639): the trace
`ece_list` starts with the warm-start error, each completed iteration
appends its error, `best_iter` is set to the current iteration `i > 0`
whenever `current_ece < ece_list[best_iter]`, and the loop breaks when
`abs(ece_list[-1] - current_ece) <= eps` without appending.  The
per-iteration errors are outputs of the external evaluator and enter the
embedding as the list `errs`. -/

/-- The trace entry at index `k` once the trace holds the warm-start
error `e0` at index 0 and iteration `j`'s error at index `j + 1`. -/
def traceEntry (e0 : ℚ) (cs : List ℚ) (k : ℕ) : ℚ :=
  if k = 0 then e0 else cs.getD (k - 1) 0

/-- The marker recurrence, written directly over the warm-start error and
the list of per-iteration errors: `b` becomes `i` exactly when iteration
`i > 0` has error strictly below `traceEntry e0 cs b`. -/
def markerFold (e0 : ℚ) (full : List ℚ) : List ℚ → ℕ → ℕ → ℕ
  | [], _, b => b
  | c :: rest, i, b =>
      markerFold e0 full rest (i + 1)
        (if 0 < i ∧ c < traceEntry e0 full b then i else b)

/-- The pure recurrence computing the final `best_iter` from the
warm-start error and the completed iterations' errors. -/
def markerRec (e0 : ℚ) (cs : List ℚ) : ℕ := markerFold e0 cs cs 0 0

/-- The per-iteration bookkeeping loop of `set_temperature3`: state is
`(ece_list, best_iter)`; the result also carries the number of completed
iterations. -/
def iterLoop (eps : ℚ) : List ℚ → ℕ → List ℚ × ℕ → (List ℚ × ℕ) × ℕ
  | [], i, s => (s, i)
  | c :: rest, i, s =>
      let b2 := if 0 < i ∧ c < s.1.getD s.2 0 then i else s.2
      if eps < |s.1.getLastD 0 - c| then
        iterLoop eps rest (i + 1) (s.1 ++ [c], b2)
      else
        ((s.1, b2), i + 1)

/-- A full per-bin bookkeeping run: trace seeded with the warm-start
error, `best_iter = 0`, iterations taken from `errs`. -/
def runIters (eps e0 : ℚ) (errs : List ℚ) : (List ℚ × ℕ) × ℕ :=
  iterLoop eps errs 0 ([e0], 0)

theorem iterLoop_take (eps : ℚ) :
    ∀ (rest : List ℚ) (i : ℕ) (s : List ℚ × ℕ),
      iterLoop eps (rest.take ((iterLoop eps rest i s).2 - i)) i s =
        iterLoop eps rest i s ∧
      (iterLoop eps rest i s).2 - i ≤ rest.length ∧
      i ≤ (iterLoop eps rest i s).2 := by
  intro rest
  induction rest with
  | nil =>
    intro i s
    simp [iterLoop]
  | cons c cs ih =>
    intro i s
    have hlc : (c :: cs).length = cs.length + 1 := rfl
    by_cases hb : eps < |s.1.getLastD 0 - c|
    · have hstep : iterLoop eps (c :: cs) i s =
          iterLoop eps cs (i + 1)
            (s.1 ++ [c], if 0 < i ∧ c < s.1.getD s.2 0 then i else s.2) := by
        rw [iterLoop]
        simp only [hb, if_true]
      obtain ⟨ih1, ih2, ih3⟩ := ih (i + 1)
        (s.1 ++ [c], if 0 < i ∧ c < s.1.getD s.2 0 then i else s.2)
      rw [hstep]
      refine ⟨?_, by omega, by omega⟩
      have hk : (iterLoop eps cs (i + 1)
          (s.1 ++ [c], if 0 < i ∧ c < s.1.getD s.2 0 then i else s.2)).2 - i =
          ((iterLoop eps cs (i + 1)
            (s.1 ++ [c], if 0 < i ∧ c < s.1.getD s.2 0 then i else s.2)).2 - (i + 1)) + 1 := by
        omega
      rw [hk, List.take_succ_cons, iterLoop]
      simp only [hb, if_true]
      exact ih1
    · have hstep : iterLoop eps (c :: cs) i s =
          ((s.1, if 0 < i ∧ c < s.1.getD s.2 0 then i else s.2), i + 1) := by
        rw [iterLoop]
        simp only [hb, if_false]
      rw [hstep]
      have h1 : i + 1 - i = 1 := by omega
      rw [h1]
      refine ⟨?_, by omega, by omega⟩
      rw [List.take_succ_cons, List.take_zero, iterLoop, iterLoop]
      simp only [hb, if_false]

theorem iterLoop_marker (eps e0 : ℚ) :
    ∀ (cs : List ℚ) (i : ℕ) (P : List ℚ) (b : ℕ),
      P.length = i → (b = 0 ∨ b < i) →
      (iterLoop eps cs i (e0 :: P, b)).2 = i + cs.length →
      (iterLoop eps cs i (e0 :: P, b)).1.2 = markerFold e0 (P ++ cs) cs i b := by
  intro cs
  induction cs with
  | nil =>
    intro i P b _ _ _
    simp [iterLoop, markerFold]
  | cons c rest ih =>
    intro i P b hP hb hcomp
    have hlc : (c :: rest).length = rest.length + 1 := rfl
    have hlook : (e0 :: P).getD b 0 = traceEntry e0 (P ++ c :: rest) b := by
      rcases Nat.eq_zero_or_pos b with h0 | hpos
      · subst h0
        simp [traceEntry]
      · have hblt : b < i := by omega
        have hb1 : b - 1 < P.length := by omega
        rw [traceEntry, if_neg (by omega)]
        rcases b with _ | b1
        · omega
        · simp only [List.getD_cons_succ, Nat.add_sub_cancel]
          rw [List.getD_append _ _ _ _ (by omega)]
    set b2 := if 0 < i ∧ c < (e0 :: P).getD b 0 then i else b with hb2def
    have hcond : b2 = if 0 < i ∧ c < traceEntry e0 (P ++ c :: rest) b then i else b := by
      rw [hb2def, hlook]
    have hb2inv : b2 = 0 ∨ b2 < i + 1 := by
      rw [hb2def]
      split <;> omega
    by_cases hbr : eps < |(e0 :: P).getLastD 0 - c|
    · have hstep : iterLoop eps (c :: rest) i (e0 :: P, b) =
          iterLoop eps rest (i + 1) (e0 :: (P ++ [c]), b2) := by
        rw [iterLoop]
        simp only [hbr, if_true, ← hb2def]
        rfl
      have hlen2 : (P ++ [c]).length = i + 1 := by simp [hP]
      have hcomp2 : (iterLoop eps rest (i + 1) (e0 :: (P ++ [c]), b2)).2 =
          (i + 1) + rest.length := by
        rw [← hstep, hcomp, hlc]
        omega
      have hmark := ih (i + 1) (P ++ [c]) b2 hlen2 hb2inv hcomp2
      have hun : markerFold e0 (P ++ c :: rest) (c :: rest) i b =
          markerFold e0 (P ++ c :: rest) rest (i + 1)
            (if 0 < i ∧ c < traceEntry e0 (P ++ c :: rest) b then i else b) := rfl
      rw [hun, ← hcond, hstep, hmark]
      have hassoc : (P ++ [c]) ++ rest = P ++ (c :: rest) := by simp
      rw [hassoc]
    · have hstep : iterLoop eps (c :: rest) i (e0 :: P, b) = ((e0 :: P, b2), i + 1) := by
        rw [iterLoop]
        simp only [hbr, if_false, ← hb2def]
      rw [hstep] at hcomp ⊢
      have hcomp2 : i + 1 = i + (c :: rest).length := hcomp
      have hrest : rest = [] := by
        rw [hlc] at hcomp2
        have : rest.length = 0 := by omega
        exact List.length_eq_zero.mp this
      subst hrest
      show b2 = markerFold e0 (P ++ [c]) [c] i b
      have hun : markerFold e0 (P ++ [c]) [c] i b =
          (if 0 < i ∧ c < traceEntry e0 (P ++ [c]) b then i else b) := rfl
      rw [hun, ← hcond]

/-- C4 amended: the returned `best_iter` equals the pure recurrence
`markerRec` over the warm-start error and the completed iterations'
errors — an update happens at iteration `i > 0` exactly when its error is
strictly below the trace entry *at index* `best_iter` (the warm-start
error for marker 0, iteration `j - 1`'s error for marker `j`), which is
not the argmin of the per-iteration errors. -/
theorem C4_best_iter_recurrence (eps e0 : ℚ) (errs : List ℚ) :
    (runIters eps e0 errs).1.2 =
      markerRec e0 (errs.take (runIters eps e0 errs).2) ∧
    (runIters eps e0 errs).2 ≤ errs.length := by
  obtain ⟨h1, h2, _⟩ := iterLoop_take eps errs 0 ([e0], 0)
  have hlen : (errs.take ((iterLoop eps errs 0 ([e0], 0)).2 - 0)).length =
      (iterLoop eps errs 0 ([e0], 0)).2 := by
    rw [List.length_take]
    omega
  have hm := iterLoop_marker eps e0 (errs.take ((iterLoop eps errs 0 ([e0], 0)).2 - 0))
    0 [] 0 rfl (Or.inl rfl) (by rw [h1, hlen]; omega)
  rw [runIters]
  constructor
  · calc (iterLoop eps errs 0 ([e0], 0)).1.2
        = (iterLoop eps (errs.take ((iterLoop eps errs 0 ([e0], 0)).2 - 0)) 0 ([e0], 0)).1.2 := by
          rw [h1]
      _ = markerFold e0 ([] ++ errs.take ((iterLoop eps errs 0 ([e0], 0)).2 - 0))
            (errs.take ((iterLoop eps errs 0 ([e0], 0)).2 - 0)) 0 0 := hm
      _ = markerRec e0 (errs.take (iterLoop eps errs 0 ([e0], 0)).2) := by
          rw [markerRec]
          simp
  · omega

/-- C4 counterexample: warm-start error `0.1`, iteration errors
`[0.01, 0.05]`, `eps = 0.00001`.  The code returns marker 1 (because
`0.05 < ece_list[0] = 0.1`), although iteration 0's recorded error
`0.01` is strictly lower than iteration 1's `0.05`. -/
theorem C4_counterexample_not_argmin :
    runIters (1 / 100000) (1 / 10) [1 / 100, 1 / 20] =
      (([1 / 10, 1 / 100, 1 / 20], 1), 2) ∧
    (1 / 100 : ℚ) < 1 / 20 := by
  constructor
  · rw [runIters, iterLoop]
    rw [if_pos (show (1 / 100000 : ℚ) < |[(1 / 10 : ℚ)].getLastD 0 - 1 / 100| by
      norm_num [List.getLastD]
      rw [abs_of_pos (show (0 : ℚ) < 9 / 100 by norm_num)]
      norm_num)]
    rw [if_neg (show ¬(0 < 0 ∧ (1 / 100 : ℚ) < [(1 / 10 : ℚ)].getD 0 0) by norm_num)]
    rw [show ([(1 / 10 : ℚ)] ++ [1 / 100]) = [1 / 10, 1 / 100] from rfl]
    rw [iterLoop]
    rw [if_pos (show (1 / 100000 : ℚ) < |[(1 / 10 : ℚ), 1 / 100].getLastD 0 - 1 / 20| by
      norm_num [List.getLastD]
      rw [abs_of_pos (show (0 : ℚ) < 1 / 25 by norm_num)]
      norm_num)]
    rw [if_pos (show 0 < 1 ∧ (1 / 20 : ℚ) < [(1 / 10 : ℚ), 1 / 100].getD 0 0 by
      norm_num [List.getD])]
    rw [iterLoop]
    rfl
  · norm_num

/-! ### Sparse-bin smoothing (C3)

`set_temperature3` (lines 1314-1339) and
`ModelWithTemperature.set_bins_temperature2` (lines 604-628): bins whose
sample count is below 20 are recorded in `few_examples` (skipping the
grid search for them, lines 1233-1238 and 539-544) and afterwards
receive a temperature from neighbouring bins: the walk decrements
`lower_bin` (resp. increments `upper_bin`) while it stays a sparse index
and stays in range; an interior bin averages the two reached values
unless the upward walk stopped at the last bin index, in which case only
the lower value is copied; the boundary bins copy a single neighbour. -/

/-- The downward neighbour walk: `while lower_bin in few_examples and
lower_bin - 1 >= 0: lower_bin -= 1`. -/
def lowerWalk (few : ℕ → Bool) : ℕ → ℕ
  | 0 => 0
  | n + 1 => if few (n + 1) then lowerWalk few n else n + 1

/-- Fuel-indexed upward neighbour walk; the fuel only bounds recursion
and `nb - ub` fuel always suffices. -/
def upperWalkAux (few : ℕ → Bool) (nb : ℕ) : ℕ → ℕ → ℕ
  | 0, ub => ub
  | fuel + 1, ub =>
      if few ub ∧ ub + 1 ≤ nb - 1 then upperWalkAux few nb fuel (ub + 1) else ub

/-- The upward neighbour walk: `while upper_bin in few_examples and
upper_bin + 1 <= n_bins - 1: upper_bin += 1`. -/
def upperWalk (few : ℕ → Bool) (nb ub : ℕ) : ℕ := upperWalkAux few nb (nb - ub) ub

/-- The temperature assigned to one sparse bin `b` by the body of
`for bin in few_examples` (lines 1317-1339). -/
def smoothOne (few : ℕ → Bool) (nb : ℕ) (T : ℕ → ℚ) (b : ℕ) : ℚ :=
  if 0 < b ∧ b < nb - 1 then
    if upperWalk few nb (b + 1) = nb - 1 then T (lowerWalk few (b - 1))
    else (T (lowerWalk few (b - 1)) + T (upperWalk few nb (b + 1))) / 2
  else if b = 0 then
    T (upperWalk few nb (b + 1))
  else
    T (lowerWalk few (b - 1))

/-- The whole smoothing pass: sparse bins are visited in ascending index
order (Python dictionaries preserve the insertion order of the preceding
bin scan) and each receives `smoothOne` of the current vector. -/
def smoothPass (few : ℕ → Bool) (nb : ℕ) (T0 : ℕ → ℚ) : ℕ → ℚ :=
  ((List.range nb).filter (fun b => few b)).foldl
    (fun T b => Function.update T b (smoothOne few nb T b)) T0

/-- The sparse set built by the bin scan: bins with fewer than 20
samples. -/
def fewBins (counts : List ℕ) : List ℕ :=
  (List.range counts.length).filter (fun b => decide (counts.getD b 0 < 20))

/-- The bins actually submitted to the per-bin grid search: the non-empty
bins not recorded as sparse. -/
def searchedBins (counts : List ℕ) : List ℕ :=
  (List.range counts.length).filter
    (fun b => decide (20 ≤ counts.getD b 0 ∧ 0 < counts.getD b 0))

theorem lowerWalk_le (few : ℕ → Bool) : ∀ n, lowerWalk few n ≤ n := by
  intro n
  induction n with
  | zero => simp [lowerWalk]
  | succ m ih =>
    rw [lowerWalk]
    split
    · omega
    · omega

theorem lowerWalk_spec (few : ℕ → Bool) :
    ∀ n, (few (lowerWalk few n) = false ∨ lowerWalk few n = 0) ∧
      (∀ k, lowerWalk few n < k → k ≤ n → few k = true) := by
  intro n
  induction n with
  | zero =>
    refine ⟨Or.inr rfl, ?_⟩
    intro k h1 h2
    omega
  | succ m ih =>
    by_cases hf : few (m + 1)
    · have hw : lowerWalk few (m + 1) = lowerWalk few m := by
        rw [lowerWalk, if_pos hf]
      obtain ⟨ih1, ih2⟩ := ih
      refine ⟨by rw [hw]; exact ih1, ?_⟩
      intro k h1 h2
      rw [hw] at h1
      rcases Nat.lt_succ_iff_lt_or_eq.mp (Nat.lt_succ_of_le h2) with h | h
      · exact ih2 k h1 (by omega)
      · rw [h]
        exact hf
    · have hw : lowerWalk few (m + 1) = m + 1 := by
        rw [lowerWalk, if_neg hf]
      refine ⟨Or.inl (by rw [hw]; exact Bool.eq_false_iff.mpr hf), ?_⟩
      intro k h1 h2
      rw [hw] at h1
      omega

theorem upperWalkAux_spec (few : ℕ → Bool) (nb : ℕ) :
    ∀ (fuel ub : ℕ), ub ≤ nb - 1 → nb - 1 - ub ≤ fuel →
      (ub ≤ upperWalkAux few nb fuel ub ∧ upperWalkAux few nb fuel ub ≤ nb - 1) ∧
      (few (upperWalkAux few nb fuel ub) = false ∨
        upperWalkAux few nb fuel ub = nb - 1) ∧
      (∀ k, ub ≤ k → k < upperWalkAux few nb fuel ub → few k = true) := by
  intro fuel
  induction fuel with
  | zero =>
    intro ub h1 h2
    have hub : ub = nb - 1 := by omega
    rw [upperWalkAux]
    exact ⟨⟨le_refl _, h1⟩, Or.inr hub, fun k hk1 hk2 => by omega⟩
  | succ m ih =>
    intro ub h1 h2
    by_cases hc : few ub ∧ ub + 1 ≤ nb - 1
    · have hw : upperWalkAux few nb (m + 1) ub = upperWalkAux few nb m (ub + 1) := by
        rw [upperWalkAux, if_pos hc]
      obtain ⟨⟨ihA, ihB⟩, ihC, ihD⟩ := ih (ub + 1) hc.2 (by omega)
      rw [hw]
      refine ⟨⟨by omega, ihB⟩, ihC, ?_⟩
      intro k hk1 hk2
      rcases Nat.eq_or_lt_of_le hk1 with h | h
      · rw [← h]
        exact hc.1
      · exact ihD k (by omega) hk2
    · have hw : upperWalkAux few nb (m + 1) ub = ub := by
        rw [upperWalkAux, if_neg hc]
      rw [hw]
      refine ⟨⟨le_refl _, h1⟩, ?_, fun k hk1 hk2 => by omega⟩
      rcases Decidable.not_and_iff_or_not.mp hc with h | h
      · exact Or.inl (Bool.eq_false_iff.mpr h)
      · exact Or.inr (by omega)

theorem upperWalk_spec (few : ℕ → Bool) (nb ub : ℕ) (h : ub ≤ nb - 1) :
    (ub ≤ upperWalk few nb ub ∧ upperWalk few nb ub ≤ nb - 1) ∧
    (few (upperWalk few nb ub) = false ∨ upperWalk few nb ub = nb - 1) ∧
    (∀ k, ub ≤ k → k < upperWalk few nb ub → few k = true) :=
  upperWalkAux_spec few nb (nb - ub) ub h (by omega)

/-- C3 amended: bins with fewer than 20 samples are excluded from the
grid search and put into the sparse set; each sparse bin is assigned from
its nearest non-sparse neighbours found by walking outward past sparse
bins, except that an interior bin whose upward walk stops at the last bin
index copies the lower value alone (no averaging) even when that last
bin is non-sparse; the two boundary bins always copy a single walked
neighbour. -/
theorem C3_sparse_smoothing (few : ℕ → Bool) (nb : ℕ) (T : ℕ → ℚ) (b : ℕ)
    (counts : List ℕ) :
    (∀ j, j ∈ fewBins counts ↔ j < counts.length ∧ counts.getD j 0 < 20) ∧
    (∀ j ∈ fewBins counts, j ∉ searchedBins counts) ∧
    (0 < b → b < nb - 1 →
      (few (lowerWalk few (b - 1)) = false ∨ lowerWalk few (b - 1) = 0) ∧
      (∀ k, lowerWalk few (b - 1) < k → k ≤ b - 1 → few k = true) ∧
      (few (upperWalk few nb (b + 1)) = false ∨ upperWalk few nb (b + 1) = nb - 1) ∧
      (∀ k, b + 1 ≤ k → k < upperWalk few nb (b + 1) → few k = true) ∧
      smoothOne few nb T b =
        (if upperWalk few nb (b + 1) = nb - 1 then T (lowerWalk few (b - 1))
        else (T (lowerWalk few (b - 1)) + T (upperWalk few nb (b + 1))) / 2)) ∧
    (b = 0 → smoothOne few nb T b = T (upperWalk few nb (b + 1))) ∧
    (0 < b → b = nb - 1 → smoothOne few nb T b = T (lowerWalk few (b - 1))) := by
  refine ⟨?_, ?_, ?_, ?_, ?_⟩
  · intro j
    constructor
    · intro hj
      rw [fewBins, List.mem_filter] at hj
      exact ⟨List.mem_range.mp hj.1, of_decide_eq_true hj.2⟩
    · intro hj
      rw [fewBins, List.mem_filter]
      exact ⟨List.mem_range.mpr hj.1, decide_eq_true hj.2⟩
  · intro j hj hj2
    rw [fewBins, List.mem_filter] at hj
    rw [searchedBins, List.mem_filter] at hj2
    have h1 := of_decide_eq_true hj.2
    have h2 := of_decide_eq_true hj2.2
    omega
  · intro hb1 hb2
    obtain ⟨hlw1, hlw2⟩ := lowerWalk_spec few (b - 1)
    obtain ⟨_, huw2, huw3⟩ := upperWalk_spec few nb (b + 1) (by omega)
    refine ⟨hlw1, hlw2, huw2, huw3, ?_⟩
    rw [smoothOne, if_pos ⟨hb1, hb2⟩]
  · intro hb0
    rw [smoothOne, if_neg (by omega), if_pos hb0]
  · intro hb1 hbl
    rw [smoothOne, if_neg (by omega), if_neg (by omega)]

/-- Witness for C3 at an interior sparse bin of a four-bin layout whose
walks stop at non-sparse interior neighbours, giving the average
`(1 + 3) / 2 = 2`. -/
theorem C3_sparse_smoothing_witness :
    smoothOne (fun j => j == 1) 4
      (fun j => if j = 0 then 1 else if j = 1 then 5 else 3) 1 = 2 := by
  have h := (C3_sparse_smoothing (fun j => j == 1) 4
    (fun j => if j = 0 then 1 else if j = 1 then 5 else 3) 1 []).2.2.1
    (by omega) (by omega)
  rw [h.2.2.2.2]
  rw [if_neg (show ¬(upperWalk (fun j => j == 1) 4 (1 + 1) = 4 - 1) by decide)]
  rw [show lowerWalk (fun j => j == 1) (1 - 1) = 0 from rfl,
    show upperWalk (fun j => j == 1) 4 (1 + 1) = 2 from rfl]
  norm_num

/-- C3 counterexample: three bins, only the middle one sparse, its
non-sparse neighbours holding temperatures 1 and 3.  The claim requires
the smoothed value `(1 + 3) / 2 = 2`, but the code's interior rule sees
the upward walk stop at the last bin index and copies the lower value 1
without averaging. -/
theorem C3_counterexample_no_average :
    (fun j => j == 1) 0 = false ∧ (fun j => j == 1) 1 = true ∧
    (fun j => j == 1) 2 = false ∧
    smoothPass (fun j => j == 1) 3
      (fun j => if j = 0 then 1 else if j = 1 then 5 else 3) 1 = 1 ∧
    ((if (0 : ℕ) = 0 then (1 : ℚ) else if (0 : ℕ) = 1 then 5 else 3) +
      (if (2 : ℕ) = 0 then (1 : ℚ) else if (2 : ℕ) = 1 then 5 else 3)) / 2 = 2 ∧
    (1 : ℚ) ≠ 2 := by
  refine ⟨rfl, rfl, rfl, ?_, by norm_num, by norm_num⟩
  rfl

/-! ### Confidence binning policies (C5)

Equal-width edges are `torch.linspace(0, 1, n_bins + 1)`
(`temperature_scaling.py` lines 36, 408, 1148); equal-population edges
are `histedges_equalN` (lines 875-879):
`np.interp(np.linspace(0, npt, n_bins + 1), np.arange(npt), np.sort(x))`
— piecewise-linear interpolation through the points `(j, sort(x)[j])`,
clamped to the first/last sample outside `[0, npt - 1]`.  (The variant
`equal_bins` of lines 882-905 is dead code: its only call site, line
1203, is commented out.) -/

/-- The equal-width edge list `linspace(0, 1, n + 1)`. -/
def linspaceEdges (n : ℕ) : List ℚ :=
  (List.range (n + 1)).map (fun i : ℕ => (i : ℚ) / (n : ℚ))

/-- The `np.interp` kernel with sample points `0, 1, ..., s.length - 1`
and values `s`: clamped to the end values outside the range, linear
between consecutive integer sample points inside. -/
def npInterp (s : List ℚ) (q : ℚ) : ℚ :=
  if s.isEmpty then 0
  else if q ≤ 0 then s.headD 0
  else if (s.length : ℚ) - 1 ≤ q then s.getLastD 0
  else
    s.getD (⌊q⌋).toNat 0 +
      (q - ((⌊q⌋).toNat : ℚ)) * (s.getD ((⌊q⌋).toNat + 1) 0 - s.getD (⌊q⌋).toNat 0)

/-- The equal-population edges of `histedges_equalN`: interpolate the
sorted confidences at the query points `i * npt / n_bins`. -/
def histedges_equalN (x : List ℚ) (n_bins : ℕ) : List ℚ :=
  (List.range (n_bins + 1)).map
    (fun i : ℕ => npInterp (List.insertionSort (fun a b => a ≤ b) x)
      ((i : ℚ) * (x.length : ℚ) / (n_bins : ℚ)))

theorem sorted_getD_mono {s : List ℚ} (hs : List.Sorted (· ≤ ·) s) {i k : ℕ}
    (hik : i ≤ k) (hk : k < s.length) : s.getD i 0 ≤ s.getD k 0 := by
  have hi : i < s.length := Nat.lt_of_le_of_lt hik hk
  rw [List.getD_eq_getElem?_getD, List.getD_eq_getElem?_getD,
    List.getElem?_eq_getElem hi, List.getElem?_eq_getElem hk]
  simp only [Option.getD_some]
  rcases Nat.eq_or_lt_of_le hik with h | h
  · subst h
    exact le_refl _
  · have := List.pairwise_iff_get.mp hs ⟨i, hi⟩ ⟨k, hk⟩ h
    simpa [List.get_eq_getElem] using this

theorem floor_toNat_cast_eq {q : ℚ} (h0 : 0 < q) :
    ((⌊q⌋.toNat : ℚ)) = ((⌊q⌋ : ℤ) : ℚ) := by
  have hfl0 : (0 : ℤ) ≤ ⌊q⌋ := Int.floor_nonneg.mpr (le_of_lt h0)
  exact_mod_cast congrArg (fun z : ℤ => (z : ℚ)) (Int.toNat_of_nonneg hfl0)

theorem floor_toNat_le {q : ℚ} (h0 : 0 < q) : ((⌊q⌋.toNat : ℚ)) ≤ q := by
  rw [floor_toNat_cast_eq h0]
  exact Int.floor_le q

theorem lt_floor_toNat_add_one {q : ℚ} (h0 : 0 < q) : q < (⌊q⌋.toNat : ℚ) + 1 := by
  rw [floor_toNat_cast_eq h0]
  exact Int.lt_floor_add_one q

theorem npInterp_interior_eq {s : List ℚ} {q : ℚ} (hne : s.isEmpty = false)
    (h0 : 0 < q) (h1 : q < (s.length : ℚ) - 1) :
    npInterp s q = s.getD (⌊q⌋).toNat 0 +
      (q - ((⌊q⌋).toNat : ℚ)) * (s.getD ((⌊q⌋).toNat + 1) 0 - s.getD (⌊q⌋).toNat 0) := by
  rw [npInterp, if_neg (by simp [hne]), if_neg (not_le.mpr h0), if_neg (not_le.mpr h1)]

theorem npInterp_of_nonpos {s : List ℚ} {q : ℚ} (hne : s.isEmpty = false)
    (hq : q ≤ 0) : npInterp s q = s.headD 0 := by
  rw [npInterp, if_neg (by simp [hne]), if_pos hq]

theorem npInterp_of_ge {s : List ℚ} {q : ℚ} (hne : s.isEmpty = false)
    (h0 : 0 < q) (hL : (s.length : ℚ) - 1 ≤ q) : npInterp s q = s.getLastD 0 := by
  rw [npInterp, if_neg (by simp [hne]), if_neg (not_le.mpr h0), if_pos hL]

theorem floor_toNat_succ_lt_length {s : List ℚ} {q : ℚ}
    (h0 : 0 < q) (h1 : q < (s.length : ℚ) - 1) : (⌊q⌋).toNat + 1 < s.length := by
  have h2 : ((⌊q⌋.toNat : ℚ)) < (s.length : ℚ) - 1 := lt_of_le_of_lt (floor_toNat_le h0) h1
  have h3 : ((⌊q⌋.toNat : ℚ)) + 1 < (s.length : ℚ) := by linarith
  exact_mod_cast h3

theorem npInterp_interior_bounds {s : List ℚ} (hs : List.Sorted (· ≤ ·) s) {q : ℚ}
    (hne : s.isEmpty = false) (h0 : 0 < q) (h1 : q < (s.length : ℚ) - 1) :
    s.getD (⌊q⌋).toNat 0 ≤ npInterp s q ∧
    npInterp s q ≤ s.getD ((⌊q⌋).toNat + 1) 0 := by
  have hjn := floor_toNat_succ_lt_length h0 h1
  have hd : s.getD (⌊q⌋).toNat 0 ≤ s.getD ((⌊q⌋).toNat + 1) 0 :=
    sorted_getD_mono hs (Nat.le_succ _) hjn
  have hle := floor_toNat_le h0
  have hlt := lt_floor_toNat_add_one h0
  rw [npInterp_interior_eq hne h0 h1]
  constructor
  · nlinarith
  · nlinarith

theorem headD_eq_getD (s : List ℚ) : s.headD 0 = s.getD 0 0 := by
  cases s <;> rfl

theorem getLastD_eq_getD : ∀ s : List ℚ, s ≠ [] → s.getLastD 0 = s.getD (s.length - 1) 0 := by
  intro s
  induction s with
  | nil => intro h; exact absurd rfl h
  | cons a t ih =>
    intro _
    cases t with
    | nil => rfl
    | cons b t2 =>
      have h1 : (a :: b :: t2).getLastD 0 = (b :: t2).getLastD 0 := rfl
      rw [h1, ih (by simp)]
      have h2 : (a :: b :: t2).length - 1 = ((b :: t2).length - 1) + 1 := by
        simp
      rw [h2, List.getD_cons_succ]

theorem sorted_headD_le {s : List ℚ} (hs : List.Sorted (· ≤ ·) s) :
    ∀ a ∈ s, s.headD 0 ≤ a := by
  cases s with
  | nil => intro a ha; simp at ha
  | cons h t =>
    intro a ha
    rcases List.mem_cons.mp ha with rfl | ha
    · exact le_refl _
    · exact List.rel_of_sorted_cons hs a ha

theorem sorted_le_getLastD {s : List ℚ} (hs : List.Sorted (· ≤ ·) s) :
    ∀ a ∈ s, a ≤ s.getLastD 0 := by
  induction s with
  | nil => intro a ha; simp at ha
  | cons h t ih =>
    intro a ha
    cases t with
    | nil =>
      rw [List.mem_singleton.mp ha]
      exact le_refl _
    | cons b t2 =>
      have hgl : (h :: b :: t2).getLastD 0 = (b :: t2).getLastD 0 := rfl
      rw [hgl]
      rcases List.mem_cons.mp ha with rfl | ha2
      · calc a ≤ b := List.rel_of_sorted_cons hs b (List.mem_cons_self b t2)
          _ ≤ (b :: t2).getLastD 0 :=
            ih hs.of_cons b (List.mem_cons_self b t2)
      · exact ih hs.of_cons a ha2

theorem headD_mem {s : List ℚ} (h : s ≠ []) : s.headD 0 ∈ s := by
  cases s with
  | nil => exact absurd rfl h
  | cons a t => exact List.mem_cons_self a t

theorem getLastD_mem : ∀ s : List ℚ, s ≠ [] → s.getLastD 0 ∈ s := by
  intro s
  induction s with
  | nil => intro h; exact absurd rfl h
  | cons a t ih =>
    intro _
    cases t with
    | nil => exact List.mem_cons_self a []
    | cons b t2 =>
      have hgl : (a :: b :: t2).getLastD 0 = (b :: t2).getLastD 0 := rfl
      rw [hgl]
      exact List.mem_cons_of_mem a (ih (by simp))

/-- Monotonicity of `np.interp` over a sorted value list. -/
theorem npInterp_mono {s : List ℚ} (hs : List.Sorted (· ≤ ·) s) {q r : ℚ}
    (hqr : q ≤ r) : npInterp s q ≤ npInterp s r := by
  by_cases hne : s.isEmpty
  · rw [npInterp, npInterp, if_pos hne, if_pos hne]
  · have hne2 : s.isEmpty = false := Bool.eq_false_iff.mpr hne
    have hsnil : s ≠ [] := by
      cases s
      · simp at hne2
      · simp
    have hlen1 : 1 ≤ s.length := List.length_pos.mpr hsnil
    have hlast : s.getLastD 0 = s.getD (s.length - 1) 0 := getLastD_eq_getD s hsnil
    by_cases hq0 : q ≤ 0
    · rw [npInterp_of_nonpos hne2 hq0, headD_eq_getD]
      by_cases hr0 : r ≤ 0
      · rw [npInterp_of_nonpos hne2 hr0, headD_eq_getD]
      · push_neg at hr0
        by_cases hrL : (s.length : ℚ) - 1 ≤ r
        · rw [npInterp_of_ge hne2 hr0 hrL, hlast]
          exact sorted_getD_mono hs (Nat.zero_le _) (by omega)
        · push_neg at hrL
          obtain ⟨hb1, _⟩ := npInterp_interior_bounds hs hne2 hr0 hrL
          calc s.getD 0 0 ≤ s.getD (⌊r⌋).toNat 0 :=
              sorted_getD_mono hs (Nat.zero_le _)
                (by have := floor_toNat_succ_lt_length hr0 hrL; omega)
            _ ≤ npInterp s r := hb1
    · push_neg at hq0
      have hr0 : 0 < r := lt_of_lt_of_le hq0 hqr
      by_cases hqL : (s.length : ℚ) - 1 ≤ q
      · have hrL : (s.length : ℚ) - 1 ≤ r := le_trans hqL hqr
        rw [npInterp_of_ge hne2 hq0 hqL, npInterp_of_ge hne2 hr0 hrL]
      · push_neg at hqL
        obtain ⟨_, hq2⟩ := npInterp_interior_bounds hs hne2 hq0 hqL
        have hjq := floor_toNat_succ_lt_length hq0 hqL
        by_cases hrL : (s.length : ℚ) - 1 ≤ r
        · rw [npInterp_of_ge hne2 hr0 hrL, hlast]
          calc npInterp s q ≤ s.getD ((⌊q⌋).toNat + 1) 0 := hq2
            _ ≤ s.getD (s.length - 1) 0 := sorted_getD_mono hs (by omega) (by omega)
        · push_neg at hrL
          obtain ⟨hr1, _⟩ := npInterp_interior_bounds hs hne2 hr0 hrL
          have hfloor : ⌊q⌋ ≤ ⌊r⌋ := Int.floor_mono hqr
          have hfl0 : (0 : ℤ) ≤ ⌊q⌋ := Int.floor_nonneg.mpr (le_of_lt hq0)
          have hjle : (⌊q⌋).toNat ≤ (⌊r⌋).toNat := Int.toNat_le_toNat hfloor
          rcases Nat.eq_or_lt_of_le hjle with hjeq | hjlt
          · have hd : s.getD (⌊q⌋).toNat 0 ≤ s.getD ((⌊q⌋).toNat + 1) 0 :=
              sorted_getD_mono hs (Nat.le_succ _) hjq
            rw [npInterp_interior_eq hne2 hq0 hqL, npInterp_interior_eq hne2 hr0 hrL,
              ← hjeq]
            nlinarith
          · calc npInterp s q ≤ s.getD ((⌊q⌋).toNat + 1) 0 := hq2
              _ ≤ s.getD (⌊r⌋).toNat 0 :=
                sorted_getD_mono hs (by omega)
                  (by have := floor_toNat_succ_lt_length hr0 hrL; omega)
              _ ≤ npInterp s r := hr1

theorem map_range_getD (f : ℕ → ℚ) (n i : ℕ) (h : i < n + 1) :
    ((List.range (n + 1)).map f).getD i 0 = f i := by
  rw [List.getD_eq_getElem?_getD, List.getElem?_map, List.getElem?_range h]
  rfl

theorem chain'_map_range (f : ℕ → ℚ) (n : ℕ) (hf : ∀ i, i < n → f i ≤ f (i + 1)) :
    List.Chain' (· ≤ ·) ((List.range (n + 1)).map f) := by
  rw [List.chain'_map]
  exact (List.chain'_range_succ (fun a b => f a ≤ f b) n).mpr hf

/-- C5 amended: both policies produce exactly `n_bins + 1` monotonically
non-decreasing edges; the equal-width edges run from 0 to 1, but the
equal-population edges run from the minimum to the maximum of the
confidence sample, so they partition `[min x, max x]` rather than
`[0, 1]`. -/
theorem C5_binning_edges (n : ℕ) (x : List ℚ) (hn : 1 ≤ n) (hx : x ≠ []) :
    (linspaceEdges n).length = n + 1 ∧
    List.Chain' (· ≤ ·) (linspaceEdges n) ∧
    (linspaceEdges n).getD 0 0 = 0 ∧
    (linspaceEdges n).getD n 0 = 1 ∧
    (histedges_equalN x n).length = n + 1 ∧
    List.Chain' (· ≤ ·) (histedges_equalN x n) ∧
    ((histedges_equalN x n).getD 0 0 ∈ x ∧
      ∀ a ∈ x, (histedges_equalN x n).getD 0 0 ≤ a) ∧
    ((histedges_equalN x n).getD n 0 ∈ x ∧
      ∀ a ∈ x, a ≤ (histedges_equalN x n).getD n 0) := by
  have hnq : (0 : ℚ) < (n : ℚ) := by exact_mod_cast hn
  have hnq0 : (n : ℚ) ≠ 0 := ne_of_gt hnq
  set s := List.insertionSort (fun a b => a ≤ b) x with hsdef
  have hsort : List.Sorted (· ≤ ·) s := List.sorted_insertionSort _ x
  have hperm : ∀ a : ℚ, a ∈ s ↔ a ∈ x := fun a =>
    (List.perm_insertionSort (fun a b => a ≤ b) x).mem_iff
  have hslen : s.length = x.length := List.length_insertionSort _ x
  have hxlen : 1 ≤ x.length := List.length_pos.mpr hx
  have hsne : s ≠ [] := by
    intro h
    rw [h] at hslen
    simp at hslen
    omega
  have hne2 : s.isEmpty = false := by
    cases hcs : s
    · exact absurd hcs hsne
    · rfl
  have hq0 : ((0 : ℕ) : ℚ) * (x.length : ℚ) / (n : ℚ) = 0 := by
    push_cast
    ring
  have hqn : ((n : ℕ) : ℚ) * (x.length : ℚ) / (n : ℚ) = (x.length : ℚ) := by
    rw [mul_comm, mul_div_assoc, div_self hnq0, mul_one]
  have hhead : npInterp s (((0 : ℕ) : ℚ) * (x.length : ℚ) / (n : ℚ)) = s.headD 0 := by
    rw [hq0, npInterp, if_neg (by simp [hne2]), if_pos (le_refl 0)]
  have hxlq : (0 : ℚ) < (x.length : ℚ) := by
    have h2 : 0 < x.length := hxlen
    exact_mod_cast h2
  have hlast : npInterp s (((n : ℕ) : ℚ) * (x.length : ℚ) / (n : ℚ)) = s.getLastD 0 := by
    rw [hqn]
    exact npInterp_of_ge hne2 hxlq (by rw [hslen]; linarith)
  refine ⟨by simp only [linspaceEdges, List.length_map, List.length_range], ?_, ?_, ?_,
    by simp only [histedges_equalN, List.length_map, List.length_range], ?_, ?_, ?_⟩
  · apply chain'_map_range
    intro i _
    have h1 : ((i : ℚ)) ≤ ((i : ℚ)) + 1 := by linarith
    calc ((i : ℚ)) / (n : ℚ) ≤ (((i : ℚ)) + 1) / (n : ℚ) :=
        (div_le_div_iff_of_pos_right hnq).mpr h1
      _ = (((i + 1 : ℕ) : ℚ)) / (n : ℚ) := by push_cast; ring
  · rw [linspaceEdges, map_range_getD _ n 0 (by omega)]
    simp
  · rw [linspaceEdges, map_range_getD _ n n (by omega)]
    exact div_self hnq0
  · apply chain'_map_range
    intro i _
    apply npInterp_mono hsort
    have h1 : ((i : ℚ)) * (x.length : ℚ) ≤ (((i + 1 : ℕ) : ℚ)) * (x.length : ℚ) := by
      have : ((i : ℚ)) ≤ (((i + 1 : ℕ) : ℚ)) := by push_cast; linarith
      exact mul_le_mul_of_nonneg_right this (by positivity)
    exact (div_le_div_iff_of_pos_right hnq).mpr h1
  · rw [histedges_equalN, map_range_getD _ n 0 (by omega), ← hsdef, hhead]
    constructor
    · exact (hperm _).mp (headD_mem hsne)
    · intro a ha
      exact sorted_headD_le hsort a ((hperm a).mpr ha)
  · rw [histedges_equalN, map_range_getD _ n n (by omega), ← hsdef, hlast]
    constructor
    · exact (hperm _).mp (getLastD_mem s hsne)
    · intro a ha
      exact sorted_le_getLastD hsort a ((hperm a).mpr ha)

/-- C5 counterexample: a single confidence `0.5` with one bin.  The
equal-population policy returns edges `[0.5, 0.5]`: the first edge is not
0 and the last edge is not 1, so the edges do not partition `[0, 1]`. -/
theorem C5_counterexample_histedges :
    histedges_equalN [1 / 2] 1 = [1 / 2, 1 / 2] ∧
    (1 / 2 : ℚ) ≠ 0 ∧ (1 / 2 : ℚ) ≠ 1 := by
  have hs : List.insertionSort (fun a b => a ≤ b) [(1 : ℚ) / 2] = [1 / 2] := rfl
  refine ⟨?_, by norm_num, by norm_num⟩
  rw [histedges_equalN, hs, show List.range 2 = [0, 1] from rfl]
  simp only [List.map_cons, List.map_nil, List.length_singleton]
  have h0 : npInterp [(1 : ℚ) / 2] (((0 : ℕ) : ℚ) * ((1 : ℕ) : ℚ) / ((1 : ℕ) : ℚ)) = 1 / 2 := by
    rw [npInterp, if_neg (by simp), if_pos (by norm_num)]
    rfl
  have h1 : npInterp [(1 : ℚ) / 2] (((1 : ℕ) : ℚ) * ((1 : ℕ) : ℚ) / ((1 : ℕ) : ℚ)) = 1 / 2 := by
    rw [npInterp, if_neg (by simp), if_neg (by norm_num), if_pos (by norm_num)]
    rfl
  rw [h0, h1]

/-- Witness for C5 at `n = 2` bins over the two confidences
`0.3, 0.7`. -/
theorem C5_binning_edges_witness :
    (linspaceEdges 2).length = 2 + 1 ∧
    (linspaceEdges 2).getD 0 0 = 0 ∧
    (linspaceEdges 2).getD 2 0 = 1 ∧
    (histedges_equalN [3 / 10, 7 / 10] 2).length = 2 + 1 ∧
    (histedges_equalN [3 / 10, 7 / 10] 2).getD 0 0 ∈ [(3 : ℚ) / 10, 7 / 10] := by
  have h := C5_binning_edges 2 [3 / 10, 7 / 10] (by omega) (by simp)
  exact ⟨h.1, h.2.2.1, h.2.2.2.1, h.2.2.2.2.1, h.2.2.2.2.2.2.1.1⟩

/-! ### Malformed configuration handling in `set_temperature3` (C7)

`set_temperature3` (lines 1085-1136, `cross_validate = 'ece'`) performs
no validation of `iters` or `num_bins`: it evaluates the objective on the
raw logits (line 1087), runs the warm-start loop `for i in range(iters)`
(lines 1102-1121) — skipped entirely when `iters <= 0` — and evaluates
the objective once more (line 1131), returning `T_opt_ece` which is still
its seed `1.0`.  `ModelWithTemperature.__init__` (lines 25-38) likewise
builds `torch.linspace(0, 1, n_bins + 1)` without checking `n_bins`.
The evaluator is abstracted as `errE`/`errN` (functions of the
temperature, the only quantity the loop varies) and every evaluator
invocation is counted in `calls`. -/

/-- Warm-start state of `set_temperature3`: the running grid variable `T`
(never reset between outer iterations), the two trackers, the number of
evaluator invocations so far and the recorded `temps_iters`. -/
structure WS3State where
  T : ℚ
  ToptE : ℚ
  eceV : ℚ
  ToptN : ℚ
  nllV : ℚ
  calls : ℕ
  temps : List ℚ
  deriving Repr

/-- The inner 100-candidate loop of lines 1104-1114: each candidate costs
one ECE and one NLL evaluation, both trackers use strict improvement, and
`T` advances by `0.1`. -/
def ws3Inner (errE errN : ℚ → ℚ) : ℕ → WS3State → WS3State
  | 0, s => s
  | t + 1, s =>
      let e := errE s.T
      let nl := errN s.T
      let s1 := if s.eceV > e then { s with ToptE := s.T, eceV := e } else s
      let s2 := if s1.nllV > nl then { s1 with ToptN := s1.T, nllV := nl } else s1
      ws3Inner errE errN t { s2 with T := s2.T + 1 / 10, calls := s2.calls + 2 }

/-- The outer loop `for i in range(iters)` of lines 1102-1121: the inner
grid, recording `temps_iters[i] = T_opt_ece`, and the extra evaluation of
line 1120. -/
def ws3Outer (errE errN : ℚ → ℚ) : ℕ → WS3State → WS3State
  | 0, s => s
  | i + 1, s =>
      let s1 := ws3Inner errE errN 100 s
      ws3Outer errE errN i
        { s1 with temps := s1.temps ++ [s1.ToptE], calls := s1.calls + 1 }

/-- The warm start of `set_temperature3` for the `'ece'` path: seed
`T = 0.1`, `T_opt_ece = T_opt_nll = 1.0`, trackers at `10 ** 7`, one
evaluator call before the loop (line 1087) and one after (line 1131). -/
def ts3WarmStart (errE errN : ℚ → ℚ) (iters : ℕ) : WS3State :=
  let s1 := ws3Outer errE errN iters ⟨1 / 10, 1, 10 ^ 7, 1, 10 ^ 7, 1, []⟩
  { s1 with calls := s1.calls + 1 }

/-- The bin-boundary matrix built unconditionally by
`ModelWithTemperature.__init__` (line 36). -/
def initBinBoundaries (n_bins iters : ℕ) : List (List ℚ) :=
  List.replicate iters (linspaceEdges n_bins)

/-- C7 amended: the solver performs no configuration validation and does
not fail fast.  With `iters = 0` the warm start still makes two evaluator
calls and yields the default temperature `T_opt_ece = 1.0`, and the
constructor happily builds a boundary list for `n_bins = 0`. -/
theorem C7_no_failfast_on_malformed_config (errE errN : ℚ → ℚ) :
    ts3WarmStart errE errN 0 = ⟨1 / 10, 1, 10 ^ 7, 1, 10 ^ 7, 2, []⟩ ∧
    initBinBoundaries 0 1 = [[0]] := by
  constructor
  · rfl
  · rw [initBinBoundaries, show List.replicate 1 (linspaceEdges 0) = [linspaceEdges 0] from rfl]
    rw [linspaceEdges, show List.range 1 = [0] from rfl]
    norm_num

/-- C7 counterexample: at the malformed configuration `iters = 0` the
solver neither raises nor stops before evaluator calls — it makes two
evaluator calls and returns temperature `1.0`. -/
theorem C7_counterexample_runs_on_malformed :
    (ts3WarmStart (fun _ => 0) (fun _ => 0) 0).ToptE = 1 ∧
    (ts3WarmStart (fun _ => 0) (fun _ => 0) 0).calls = 2 ∧
    (ts3WarmStart (fun _ => 0) (fun _ => 0) 0).calls ≠ 0 :=
  ⟨rfl, rfl, by rw [show (ts3WarmStart (fun _ => 0) (fun _ => 0) 0).calls = 2 from rfl]; omega⟩

/-! ### Per-class iterative solver (C9)

Two variants exist.  `set_temperature2` (lines 784-839) runs exactly
`for iter in range(iters)` passes over the classes — its fixed-point
check (line 838) is commented out — with the inner absolute grid
`T = 0.1, ..., 10.0` per class and a single incumbent error `csece_val`
shared across classes and passes; each pass appends one entry to
`ece_list` (seeded at line 772).  `ModelWithTemperature.set_temperature`
(lines 256-305) instead runs `while not converged`, with the step-based
candidates `init_temp_value + step`, stopping exactly when a pass leaves
`csece_temperature` unchanged — and has no iteration cap at all.  The
evaluator is a function of the per-class temperature vector. -/

/-- The accept-if-strictly-better step shared by both variants: write the
candidate into slot `l`, evaluate, keep it when the error strictly
improves. -/
def acceptStep (err : List ℚ → ℚ) (l : ℕ) (s : List ℚ × ℚ) (c : ℚ) : List ℚ × ℚ :=
  if s.2 > err (s.1.set l c) then (s.1.set l c, err (s.1.set l c)) else s

/-- One class's scan in `set_temperature2`: the absolute grid. -/
def scanLabelGrid (err : List ℚ → ℚ) (s : List ℚ × ℚ) (l : ℕ) : List ℚ × ℚ :=
  tempGrid.foldl (acceptStep err l) s

/-- One full pass over all `C` classes in `set_temperature2`. -/
def passOnce2 (err : List ℚ → ℚ) (C : ℕ) (s : List ℚ × ℚ) : List ℚ × ℚ :=
  (List.range C).foldl (scanLabelGrid err) s

/-- The `for iter in range(iters)` loop of `set_temperature2`, threading
the state and appending the pass error to `ece_list`. -/
def run2 (err : List ℚ → ℚ) (C : ℕ) :
    ℕ → (List ℚ × ℚ) × List ℚ → (List ℚ × ℚ) × List ℚ
  | 0, st => st
  | n + 1, st =>
      run2 err C n (passOnce2 err C st.1, st.2 ++ [err (passOnce2 err C st.1).1])

/-- A full `set_temperature2` per-class run (`acc_check = False`): vector
seeded at the warm-start temperature, incumbent error `10 ** 7`, trace
seeded with the error of the initial vector (line 772). -/
def set_temperature2_run (err : List ℚ → ℚ) (C iters : ℕ) (init : ℚ) :
    (List ℚ × ℚ) × List ℚ :=
  run2 err C iters ((List.replicate C init, 10 ^ 7), [err (List.replicate C init)])

/-- One class's scan in `ModelWithTemperature.set_temperature`: the
step-based candidates around the incumbent. -/
def scanLabelStep (err : List ℚ → ℚ) (s : List ℚ × ℚ) (l : ℕ) : List ℚ × ℚ :=
  (stepCandidates (s.1.getD l 0)).foldl (acceptStep err l) s

/-- One full pass of the `while not converged` variant. -/
def passOnceW (err : List ℚ → ℚ) (C : ℕ) (s : List ℚ × ℚ) : List ℚ × ℚ :=
  (List.range C).foldl (scanLabelStep err) s

/-- The uncapped `while not converged` loop, run under a fuel bound so it
is a total function; on convergence it returns the state before and
after the final pass. -/
def runWhile (err : List ℚ → ℚ) (C : ℕ) :
    ℕ → List ℚ × ℚ → Option ((List ℚ × ℚ) × (List ℚ × ℚ))
  | 0, _ => none
  | fuel + 1, s =>
      if (passOnceW err C s).1 = s.1 then some (s, passOnceW err C s)
      else runWhile err C fuel (passOnceW err C s)

theorem run2_spec (err : List ℚ → ℚ) (C : ℕ) :
    ∀ (n : ℕ) (st : (List ℚ × ℚ) × List ℚ),
      (run2 err C n st).2.length = st.2.length + n ∧
      (run2 err C n st).1 = (passOnce2 err C)^[n] st.1 := by
  intro n
  induction n with
  | zero =>
    intro st
    simp [run2]
  | succ m ih =>
    intro st
    obtain ⟨ih1, ih2⟩ := ih (passOnce2 err C st.1, st.2 ++ [err (passOnce2 err C st.1).1])
    rw [run2]
    constructor
    · rw [ih1]
      simp only [List.length_append, List.length_singleton]
      omega
    · rw [ih2, Function.iterate_succ_apply]

theorem runWhile_spec (err : List ℚ → ℚ) (C : ℕ) :
    ∀ (fuel : ℕ) (s s1 s2 : List ℚ × ℚ), runWhile err C fuel s = some (s1, s2) →
      s2 = passOnceW err C s1 ∧ s2.1 = s1.1 := by
  intro fuel
  induction fuel with
  | zero =>
    intro s s1 s2 h
    simp [runWhile] at h
  | succ m ih =>
    intro s s1 s2 h
    rw [runWhile] at h
    by_cases hc : (passOnceW err C s).1 = s.1
    · rw [if_pos hc] at h
      have h3 := Option.some.inj h
      have h4 : s = s1 := congrArg Prod.fst h3
      have h5 : passOnceW err C s = s2 := congrArg Prod.snd h3
      subst h4
      subst h5
      exact ⟨rfl, hc⟩
    · rw [if_neg hc] at h
      exact ih _ s1 s2 h

/-- C9 amended: the two per-class variants split the claimed stopping
rule between them.  `set_temperature2` executes exactly `iters` passes —
its trace has length `iters + 1` and its final state is the `iters`-fold
iterate of one pass, with no early fixed-point exit — so it terminates
under the cap but never stops on an unchanged vector; the `while`
variant stops exactly when a full pass returns a vector equal to the one
before it, and carries no iteration cap of its own. -/
theorem C9_per_class_solver (err : List ℚ → ℚ) (C iters : ℕ) (init : ℚ)
    (fuel : ℕ) (s : List ℚ × ℚ) :
    ((set_temperature2_run err C iters init).2.length = iters + 1 ∧
      (set_temperature2_run err C iters init).1 =
        (passOnce2 err C)^[iters] (List.replicate C init, 10 ^ 7)) ∧
    (∀ s1 s2 : List ℚ × ℚ, runWhile err C fuel s = some (s1, s2) →
      s2 = passOnceW err C s1 ∧ s2.1 = s1.1) := by
  constructor
  · obtain ⟨h1, h2⟩ := run2_spec err C iters
      ((List.replicate C init, 10 ^ 7), [err (List.replicate C init)])
    rw [set_temperature2_run]
    refine ⟨?_, h2⟩
    rw [h1]
    simp only [List.length_singleton]
    omega
  · intro s1 s2 h
    exact runWhile_spec err C fuel s s1 s2 h

theorem acceptStep_const_zero (l : ℕ) (s : List ℚ × ℚ) (c : ℚ) (h : s.2 = 0) :
    acceptStep (fun _ => 0) l s c = s := by
  rw [acceptStep, if_neg]
  rw [h]
  norm_num

theorem foldl_acceptStep_const_zero (l : ℕ) :
    ∀ (L : List ℚ) (s : List ℚ × ℚ), s.2 = 0 →
      L.foldl (acceptStep (fun _ => 0) l) s = s := by
  intro L
  induction L with
  | nil => intro s h; rfl
  | cons c cs ih =>
    intro s h
    rw [List.foldl_cons, acceptStep_const_zero l s c h]
    exact ih s h

/-- C9 counterexample: with a constant objective, one class and `iters =
3`, the first pass already leaves the vector unchanged (every later
candidate fails the strict-improvement test), yet `set_temperature2`
performs all three passes: its trace has length 4, not the length 2 the
claimed stop-on-unchanged rule would give. -/
theorem C9_counterexample_no_fixed_point_exit :
    (set_temperature2_run (fun _ => 0) 1 3 (1 / 10)).2.length = 4 ∧
    (passOnce2 (fun _ => 0) 1 (List.replicate 1 (1 / 10), 10 ^ 7)).1 =
      List.replicate 1 (1 / 10) ∧
    (4 : ℕ) ≠ 2 := by
  have hpass : passOnce2 (fun _ => 0) 1 (List.replicate 1 (1 / 10), 10 ^ 7) =
      (List.replicate 1 (1 / 10), 0) := by
    rw [passOnce2, show List.range 1 = [0] from rfl, List.foldl_cons, List.foldl_nil]
    rw [scanLabelGrid, show tempGrid = (1 / 10 : ℚ) :: gridList 99 (1 / 10 + 1 / 10) from rfl]
    rw [List.foldl_cons]
    have hstep1 : acceptStep (fun _ => 0) 0 (List.replicate 1 (1 / 10), 10 ^ 7) (1 / 10) =
        (List.replicate 1 (1 / 10), 0) := by
      rw [acceptStep, if_pos (by norm_num)]
      rfl
    rw [hstep1]
    exact foldl_acceptStep_const_zero 0 _ _ rfl
  constructor
  · obtain ⟨h1, _⟩ := run2_spec (fun _ => 0) 1 3
      ((List.replicate 1 (1 / 10), 10 ^ 7),
        [(fun _ : List ℚ => (0 : ℚ)) (List.replicate 1 (1 / 10))])
    rw [set_temperature2_run, h1]
    simp
  · exact ⟨by rw [hpass], by omega⟩

/-- Witness for C9: a converged `runWhile` run at the constant-zero
objective. -/
theorem C9_per_class_solver_witness :
    (set_temperature2_run (fun _ => 0) 1 2 (1 / 10)).2.length = 2 + 1 ∧
    (([0], 0) : List ℚ × ℚ) = passOnceW (fun _ => 0) 1 ([0], 0) := by
  have hpass : passOnceW (fun _ => 0) 1 ([0], 0) = ([0], 0) := by
    rw [passOnceW, show List.range 1 = [0] from rfl, List.foldl_cons, List.foldl_nil]
    rw [scanLabelStep]
    exact foldl_acceptStep_const_zero 0 _ _ rfl
  have hrw : runWhile (fun _ => 0) 1 1 ([0], 0) = some (([0], 0), ([0], 0)) := by
    rw [runWhile, if_pos (by rw [hpass]), hpass]
  have h := C9_per_class_solver (fun _ => 0) 1 2 (1 / 10) 1 ([0], 0)
  exact ⟨h.1.1, (h.2 ([0], 0) ([0], 0) hrw).1⟩

/-! ### Per-bin calibration error `bin_ece` (C8)

`bin_ece` (lines 908-921) receives the logits of one bin's members, the
global accuracy mask and the bin membership mask; it clamps the bin
accuracy into `[0.01, 0.99]`, weighs by the bin's population fraction and
returns `prop_in_bin * |accuracy_in_bin - avg_confidence_in_bin|`
(together with the sample count, the unclamped accuracy and the mean
confidence, which appear below as `List.length`, `binAccuracy` and
`binAvgConf`).  The softmax-and-max step producing the confidences is
external to the aggregation, so the embedding receives the bin members'
confidences directly. -/

/-- Arithmetic mean as `float().mean()` computes it. -/
def listMean (l : List ℚ) : ℚ := l.sum / (l.length : ℚ)

/-- A boolean cast to `0.0 / 1.0` as `.float()` does. -/
def boolToQ (b : Bool) : ℚ := if b then 1 else 0

/-- The unclamped bin accuracy `accuracies[in_bin].float().mean()`. -/
def binAccuracy (accuracies inBin : List Bool) : ℚ :=
  listMean (((accuracies.zip inBin).filter (fun p => p.2)).map (fun p => boolToQ p.1))

/-- The clamp `max(min(acc, 0.99), 0.01)` of lines 911-912. -/
def binAccuracyClamped (accuracies inBin : List Bool) : ℚ :=
  max (min (binAccuracy accuracies inBin) (99 / 100)) (1 / 100)

/-- The population fraction `in_bin.float().mean()`. -/
def binProp (inBin : List Bool) : ℚ := listMean (inBin.map boolToQ)

/-- The mean confidence of the bin members. -/
def binAvgConf (binConfs : List ℚ) : ℚ := listMean binConfs

/-- The returned error `(prop_in_bin * |accuracy_in_bin -
avg_confidence_in_bin|).item()`. -/
def bin_ece (binConfs : List ℚ) (accuracies inBin : List Bool) : ℚ :=
  binProp inBin * |binAccuracyClamped accuracies inBin - binAvgConf binConfs|

theorem sum_map_boolToQ : ∀ l : List Bool, (l.map boolToQ).sum = (l.count true : ℚ) := by
  intro l
  induction l with
  | nil => simp
  | cons b t ih =>
    cases b
    · simp [boolToQ, List.count_cons, ih]
    · simp only [List.map_cons, List.sum_cons, boolToQ, if_pos, List.count_cons, ih]
      norm_num
      ring

theorem binProp_nonneg (inBin : List Bool) : 0 ≤ binProp inBin := by
  rw [binProp, listMean]
  apply div_nonneg
  · apply List.sum_nonneg
    intro a ha
    obtain ⟨b, _, rfl⟩ := List.mem_map.mp ha
    cases b <;> simp [boolToQ]
  · positivity

theorem binProp_pos {inBin : List Bool} (h : inBin.count true ≠ 0) :
    0 < binProp inBin := by
  have hc : 1 ≤ inBin.count true := Nat.one_le_iff_ne_zero.mpr h
  have hl : 1 ≤ inBin.length := le_trans hc (List.count_le_length _ _)
  rw [binProp, listMean, sum_map_boolToQ, List.length_map]
  apply div_pos
  · exact_mod_cast hc
  · exact_mod_cast hl

/-- C8 amended: `bin_ece` is always non-negative, and on a non-empty bin
it vanishes exactly when the mean confidence equals the *clamped*
accuracy `max(min(acc, 0.99), 0.01)`; this coincides with the claimed
"mean confidence equals empirical accuracy" criterion exactly when the
empirical accuracy already lies inside `[0.01, 0.99]`. -/
theorem C8_bin_ece_zero_iff (binConfs : List ℚ) (accuracies inBin : List Bool) :
    0 ≤ bin_ece binConfs accuracies inBin ∧
    (inBin.count true ≠ 0 →
      (bin_ece binConfs accuracies inBin = 0 ↔
        binAvgConf binConfs = binAccuracyClamped accuracies inBin)) ∧
    (inBin.count true ≠ 0 → 1 / 100 ≤ binAccuracy accuracies inBin →
      binAccuracy accuracies inBin ≤ 99 / 100 →
      (bin_ece binConfs accuracies inBin = 0 ↔
        binAvgConf binConfs = binAccuracy accuracies inBin)) := by
  have hiff : inBin.count true ≠ 0 →
      (bin_ece binConfs accuracies inBin = 0 ↔
        binAvgConf binConfs = binAccuracyClamped accuracies inBin) := by
    intro h
    have hp := binProp_pos h
    rw [bin_ece]
    constructor
    · intro h0
      rcases mul_eq_zero.mp h0 with h1 | h1
      · exact absurd h1 (ne_of_gt hp)
      · have := abs_eq_zero.mp h1
        linarith [sub_eq_zero.mp this]
    · intro h0
      rw [h0]
      simp
  refine ⟨?_, hiff, ?_⟩
  · exact mul_nonneg (binProp_nonneg inBin) (abs_nonneg _)
  · intro h hlb hub
    have hcl : binAccuracyClamped accuracies inBin = binAccuracy accuracies inBin := by
      rw [binAccuracyClamped, min_eq_left hub, max_eq_left hlb]
    rw [← hcl]
    exact hiff h

/-- C8 counterexample: a bin whose members are all correct with
confidence exactly 1.  Mean confidence equals empirical accuracy
(both 1), yet the clamp makes `bin_ece = 1 * |0.99 - 1| = 0.01 ≠ 0`. -/
theorem C8_counterexample_clamp :
    bin_ece [1, 1] [true, true] [true, true] = 1 / 100 ∧
    binAvgConf [1, 1] = binAccuracy [true, true] [true, true] ∧
    (1 / 100 : ℚ) ≠ 0 := by
  have h1 : binAccuracy [true, true] [true, true] = 1 := by
    norm_num [binAccuracy, listMean, boolToQ, List.zip, List.zipWith,
      List.filter_cons, List.filter_nil]
  have h2 : binAccuracyClamped [true, true] [true, true] = 99 / 100 := by
    rw [binAccuracyClamped, h1,
      min_eq_right (show (99 / 100 : ℚ) ≤ 1 by norm_num),
      max_eq_left (show (1 / 100 : ℚ) ≤ 99 / 100 by norm_num)]
  have h3 : binProp [true, true] = 1 := by
    norm_num [binProp, listMean, boolToQ]
  have h4 : binAvgConf [(1 : ℚ), 1] = 1 := by
    norm_num [binAvgConf, listMean]
  refine ⟨?_, by rw [h4, h1], by norm_num⟩
  rw [bin_ece, h2, h3, h4, one_mul,
    show (99 / 100 : ℚ) - 1 = -(1 / 100) by norm_num, abs_neg,
    abs_of_pos (show (0 : ℚ) < 1 / 100 by norm_num)]

/-- Witness for C8 at a calibrated half-accurate bin: accuracy `0.5` is
inside the clamp range and the mean confidence is also `0.5`, so the
error is zero. -/
theorem C8_bin_ece_zero_iff_witness :
    bin_ece [1 / 2, 1 / 2] [true, false] [true, true] = 0 := by
  have hacc : binAccuracy [true, false] [true, true] = 1 / 2 := by
    norm_num [binAccuracy, listMean, boolToQ, List.zip, List.zipWith,
      List.filter_cons, List.filter_nil]
  have havg : binAvgConf [(1 : ℚ) / 2, 1 / 2] = 1 / 2 := by
    norm_num [binAvgConf, listMean]
  have h := (C8_bin_ece_zero_iff [1 / 2, 1 / 2] [true, false] [true, true]).2.2
    (by decide) (by rw [hacc]; norm_num) (by rw [hacc]; norm_num)
  exact h.mpr (by rw [havg, hacc])

end FocalCalib
